import Mathlib

/-!
Verification of the inbound request admission and processing pipeline of the
LineBot-VLM-GroupAgent repository: the sliding-window rate limiter
(src/models/rate_limit.py, src/services/rate_limit_service.py), the bounded
queue and worker failure policy (src/services/queue_service.py), the message
cache (src/services/message_cache_service.py), the conversation context store
(src/services/conversation_context_service.py) and the request model with its
validation (src/models/llm_request.py).

Python code is shallowly embedded: module/instance state becomes explicit
values threaded through functions, `datetime.utcnow()` / `time.time()` become
an explicit integer `now` parameter (one reading per outer call), deques and
OrderedDicts become lists (association lists for dicts, oldest first), and
exceptions become `Except` / `Option` results.
-/

namespace LineBot

/-! ### Rate limiter

`RateLimitTracker` (src/models/rate_limit.py) keeps a deque of request
timestamps; here the deque is a `List Int` (oldest first) and each method
takes the clock reading `now` explicitly.  The configuration values
`window_seconds` and `max_requests` are passed as parameters `window`/`cap`.
-/

/-- `RateLimitTracker._prune_old_timestamps`: pop from the left while the
oldest timestamp is strictly below `now - window`. -/
def prune_old_timestamps (window now : Int) (ts : List Int) : List Int :=
  ts.dropWhile (fun t => decide (t < now - window))

/-- `RateLimitTracker.is_allowed`: prune, then allow iff the count is below
the cap; on rejection report `max(0, int(window - (now - oldest)) + 1)`.
The pruned timestamp list (the mutated deque) is returned as well. -/
def is_allowed (window : Int) (cap : Nat) (now : Int) (ts : List Int) :
    Bool × Int × List Int :=
  let pruned := prune_old_timestamps window now ts
  if pruned.length < cap then (true, 0, pruned)
  else
    let oldest := pruned.headD 0
    let seconds_until_reset := window - (now - oldest) + 1
    (false, max 0 seconds_until_reset, pruned)

/-- `RateLimitTracker.record_request`: prune, then append `now`. -/
def record_request (window now : Int) (ts : List Int) : List Int :=
  prune_old_timestamps window now ts ++ [now]

/-- `RateLimitTracker.current_count`: prune, then count. -/
def current_count (window now : Int) (ts : List Int) : Nat :=
  (prune_old_timestamps window now ts).length

/-- `RateLimitTracker.remaining`: `max(0, max_requests - current_count)`
(the `max 0` is the truncation of `Nat` subtraction). -/
def remaining (window : Int) (cap : Nat) (now : Int) (ts : List Int) : Nat :=
  cap - current_count window now ts

/-- `RateLimitService.check_and_record` (src/services/rate_limit_service.py):
under the service lock, call `is_allowed`, record the request only when
allowed, and report `(allowed, seconds_until_reset, remaining)` together with
the new timestamp list. -/
def check_and_record (window : Int) (cap : Nat) (now : Int) (ts : List Int) :
    Bool × Int × Nat × List Int :=
  let r := is_allowed window cap now ts
  let ts2 := if r.1 then record_request window now r.2.2 else r.2.2
  (r.1, r.2.1, remaining window cap now ts2, ts2)

/-- A sequence of `check_and_record` calls against one tracker, starting from
state `st` with the granted timestamps accumulated in `grants`. -/
def runFrom (window : Int) (cap : Nat) : List Int → List Int → List Int →
    List Int × List Int
  | [], st, grants => (st, grants)
  | now :: rest, st, grants =>
      let r := check_and_record window cap now st
      runFrom window cap rest r.2.2.2 (if r.1 then grants ++ [now] else grants)

/-- A sequence of `check_and_record` calls against a fresh tracker; returns
the final timestamp state and the list of granted (recorded) timestamps. -/
def runCalls (window : Int) (cap : Nat) (calls : List Int) :
    List Int × List Int :=
  runFrom window cap calls [] []

/-- Whether a grant timestamp `g` lies in the trailing window of `t`. -/
def inWindow (window t g : Int) : Bool :=
  decide (t - window ≤ g) && decide (g ≤ t)

/-- Number of granted timestamps inside the trailing window of `t`. -/
def grantsInWindow (window : Int) (grants : List Int) (t : Int) : Nat :=
  (grants.filter (inWindow window t)).length

/-! #### Helper lemmas about pruning -/

theorem dropWhile_lt_eq_filter (c : Int) :
    ∀ (l : List Int), l.Sorted (· ≤ ·) →
      l.dropWhile (fun t => decide (t < c)) = l.filter (fun t => decide (c ≤ t))
  | [], _ => rfl
  | a :: t, h => by
    rcases List.sorted_cons.mp h with ⟨ha, ht⟩
    by_cases hac : a < c
    · have h1 : decide (a < c) = true := decide_eq_true hac
      have h2 : decide (c ≤ a) = false := decide_eq_false (not_le.mpr hac)
      simp only [List.dropWhile_cons, List.filter_cons, h1, h2, if_true,
        if_false]
      exact dropWhile_lt_eq_filter c t ht
    · have hca : c ≤ a := not_lt.mp hac
      have h1 : decide (a < c) = false := decide_eq_false hac
      have h2 : decide (c ≤ a) = true := decide_eq_true hca
      have hall : ∀ x ∈ t, (decide (c ≤ x)) = true := fun x hx =>
        decide_eq_true (le_trans hca (ha x hx))
      simp only [List.dropWhile_cons, List.filter_cons, h1, h2, if_true,
        if_false]
      exact congrArg (a :: ·) (List.filter_eq_self.mpr hall).symm

theorem prune_eq_filter (window now : Int) (ts : List Int)
    (h : ts.Sorted (· ≤ ·)) :
    prune_old_timestamps window now ts =
      ts.filter (fun t => decide (now - window ≤ t)) :=
  dropWhile_lt_eq_filter (now - window) ts h

theorem dropWhile_eq_self_of_head {α : Type} (p : α → Bool) :
    ∀ (l : List α), (∀ (a : α) (t : List α), l = a :: t → p a = false) →
      l.dropWhile p = l
  | [], _ => rfl
  | a :: t, h => by simp [List.dropWhile, h a t rfl]

theorem prune_eq_self_of_all (window now : Int) (l : List Int)
    (h : ∀ x ∈ l, now - window ≤ x) :
    prune_old_timestamps window now l = l := by
  apply dropWhile_eq_self_of_head
  intro a t heq
  have ha : a ∈ l := by rw [heq]; exact List.mem_cons_self a t
  simp [not_lt.mpr (h a ha)]


theorem filter_window_singleton (window now : Int) (hw : 0 ≤ window) :
    List.filter (fun g => decide (now - window ≤ g)) [now] = [now] := by
  have h : decide (now - window ≤ now) = true := decide_eq_true (by omega)
  simp only [List.filter_cons, List.filter_nil, h, if_true]

theorem mem_filter_window (window now : Int) (ts : List Int) :
    ∀ x ∈ ts.filter (fun t => decide (now - window ≤ t)), now - window ≤ x :=
  fun x hx => of_decide_eq_true (List.mem_filter.mp hx).2

/-- `check_and_record` on a sorted tracker state, allowed branch. -/
theorem check_and_record_pos (window : Int) (cap : Nat) (now : Int)
    (ts : List Int) (hs : ts.Sorted (· ≤ ·)) (hw : 0 ≤ window)
    (hlt : (ts.filter (fun t => decide (now - window ≤ t))).length < cap) :
    check_and_record window cap now ts =
      (true, 0,
       cap - ((ts.filter (fun t => decide (now - window ≤ t))).length + 1),
       ts.filter (fun t => decide (now - window ≤ t)) ++ [now]) := by
  have hmem := mem_filter_window window now ts
  have happ : ∀ x ∈ ts.filter (fun t => decide (now - window ≤ t)) ++ [now],
      now - window ≤ x := by
    intro x hx
    rcases List.mem_append.mp hx with hx | hx
    · exact hmem x hx
    · rcases List.mem_singleton.mp hx with rfl; omega
  simp only [check_and_record, is_allowed, record_request, remaining,
    current_count]
  rw [prune_eq_filter window now ts hs, if_pos hlt]
  simp only [prune_eq_self_of_all window now _ hmem,
    prune_eq_self_of_all window now _ happ, if_true, List.length_append,
    List.length_singleton]

/-- `check_and_record` on a sorted tracker state, rejected branch. -/
theorem check_and_record_neg (window : Int) (cap : Nat) (now : Int)
    (ts : List Int) (hs : ts.Sorted (· ≤ ·)) (hw : 0 ≤ window)
    (hge : ¬ (ts.filter (fun t => decide (now - window ≤ t))).length < cap) :
    check_and_record window cap now ts =
      (false,
       max 0 (window -
         (now - (ts.filter (fun t => decide (now - window ≤ t))).headD 0) + 1),
       0,
       ts.filter (fun t => decide (now - window ≤ t))) := by
  have hmem := mem_filter_window window now ts
  simp only [check_and_record, is_allowed, record_request, remaining,
    current_count]
  rw [prune_eq_filter window now ts hs, if_neg hge]
  simp only [Bool.false_eq_true, if_false,
    prune_eq_self_of_all window now _ hmem,
    Nat.sub_eq_zero_of_le (not_lt.mp hge)]

/-- The fundamental invariant of a sorted run of `check_and_record` calls:
the granted timestamps stay sorted and below some bound reached by the calls,
the tracker state is exactly the set of grants still inside the window of the
latest call, and no trailing window ever holds more than `cap` grants. -/
theorem runFrom_inv (window : Int) (cap : Nat) (hw : 0 ≤ window) :
    ∀ (calls grants st : List Int) (bound : Int),
      calls.Sorted (· ≤ ·) → (∀ c ∈ calls, bound ≤ c) →
      grants.Sorted (· ≤ ·) → (∀ g ∈ grants, g ≤ bound) →
      st = grants.filter (fun g => decide (bound - window ≤ g)) →
      (∀ t, grantsInWindow window grants t ≤ cap) →
      (runFrom window cap calls st grants).2.Sorted (· ≤ ·) ∧
      (∀ t, grantsInWindow window (runFrom window cap calls st grants).2 t ≤ cap) ∧
      ∃ b, (b = bound ∨ b ∈ calls) ∧
        (∀ g ∈ (runFrom window cap calls st grants).2, g ≤ b) ∧
        (runFrom window cap calls st grants).1 =
          (runFrom window cap calls st grants).2.filter
            (fun g => decide (b - window ≤ g))
  | [], grants, st, bound, _, _, hgs, hgb, hst, hcnt =>
    ⟨hgs, hcnt, bound, Or.inl rfl, hgb, hst⟩
  | now :: rest, grants, st, bound, hcs, hcb, hgs, hgb, hst, hcnt => by
    rcases List.sorted_cons.mp hcs with ⟨hnr, hrs⟩
    have hbn : bound ≤ now := hcb now (List.mem_cons_self _ _)
    have hstS : st.Sorted (· ≤ ·) := hst ▸ hgs.filter _
    -- pruning `st` at `now` filters the grants by the window of `now`
    have hprune : st.filter (fun t => decide (now - window ≤ t)) =
        grants.filter (fun g => decide (now - window ≤ g)) := by
      rw [hst, List.filter_filter]
      apply List.filter_congr
      intro g _
      by_cases hg : now - window ≤ g
      · have hbg : bound - window ≤ g := by omega
        simp only [decide_eq_true hg, decide_eq_true hbg, Bool.and_self]
      · simp only [decide_eq_false hg, Bool.false_and, Bool.and_false]
    by_cases hallow :
        (grants.filter (fun g => decide (now - window ≤ g))).length < cap
    · -- request granted: `now` is recorded
      have hcr := check_and_record_pos window cap now st hstS hw
        (hprune ▸ hallow)
      have hrun : runFrom window cap (now :: rest) st grants =
          runFrom window cap rest
            (grants.filter (fun g => decide (now - window ≤ g)) ++ [now])
            (grants ++ [now]) := by
        rw [runFrom, hcr]
        simp only [hprune, if_true]
      have hg1s : (grants ++ [now]).Sorted (· ≤ ·) := by
        refine List.pairwise_append.mpr
          ⟨hgs, List.pairwise_singleton _ _, fun g hg y hy => ?_⟩
        rcases List.mem_singleton.mp hy with rfl
        exact le_trans (hgb g hg) hbn
      have hg1b : ∀ g ∈ grants ++ [now], g ≤ now := by
        intro g hg
        rcases List.mem_append.mp hg with hg | hg
        · exact le_trans (hgb g hg) hbn
        · rcases List.mem_singleton.mp hg with rfl; exact le_rfl
      have hg1st : grants.filter (fun g => decide (now - window ≤ g)) ++ [now] =
          (grants ++ [now]).filter (fun g => decide (now - window ≤ g)) := by
        rw [List.filter_append, filter_window_singleton window now hw]
      have hg1cnt : ∀ t, grantsInWindow window (grants ++ [now]) t ≤ cap := by
        intro t
        unfold grantsInWindow
        rw [List.filter_append, List.length_append]
        by_cases hin : inWindow window t now = true
        · have hsub : List.Sublist (grants.filter (inWindow window t))
              (grants.filter (fun g => decide (now - window ≤ g))) := by
            apply List.monotone_filter_right
            intro g hg
            have h1 : t - window ≤ g ∧ g ≤ t := by
              unfold inWindow at hg
              simpa using hg
            have h2 : t - window ≤ now ∧ now ≤ t := by
              unfold inWindow at hin
              simpa using hin
            exact decide_eq_true (by omega)
          have hle := hsub.length_le
          have hone : (List.filter (inWindow window t) [now]).length ≤ 1 := by
            simp only [List.filter_cons, List.filter_nil, hin, if_true,
              List.length_singleton]
            exact le_rfl
          omega
        · have hz : List.filter (inWindow window t) [now] = [] := by
            simp only [List.filter_cons, List.filter_nil]
            rw [if_neg hin]
          rw [hz]
          have := hcnt t
          unfold grantsInWindow at this
          simpa using this
      have hres := runFrom_inv window cap hw rest (grants ++ [now])
        (grants.filter (fun g => decide (now - window ≤ g)) ++ [now]) now
        hrs hnr hg1s hg1b hg1st hg1cnt
      rw [hrun]
      refine ⟨hres.1, hres.2.1, ?_⟩
      rcases hres.2.2 with ⟨b, hb, hgb2, hst2⟩
      refine ⟨b, ?_, hgb2, hst2⟩
      rcases hb with rfl | hb
      · exact Or.inr (List.mem_cons_self _ _)
      · exact Or.inr (List.mem_cons_of_mem _ hb)
    · -- request rejected: grants unchanged, state is the pruned list
      have hcr := check_and_record_neg window cap now st hstS hw
        (hprune ▸ hallow)
      have hrun : runFrom window cap (now :: rest) st grants =
          runFrom window cap rest
            (grants.filter (fun g => decide (now - window ≤ g))) grants := by
        rw [runFrom, hcr]
        simp only [hprune, Bool.false_eq_true, if_false]
      have hres := runFrom_inv window cap hw rest grants
        (grants.filter (fun g => decide (now - window ≤ g))) now
        hrs hnr hgs (fun g hg => le_trans (hgb g hg) hbn) rfl hcnt
      rw [hrun]
      refine ⟨hres.1, hres.2.1, ?_⟩
      rcases hres.2.2 with ⟨b, hb, hgb2, hst2⟩
      refine ⟨b, ?_, hgb2, hst2⟩
      rcases hb with rfl | hb
      · exact Or.inr (List.mem_cons_self _ _)
      · exact Or.inr (List.mem_cons_of_mem _ hb)

/-- **C1.** For every identity, `check_and_record` atomically prunes
timestamps older than the window and then: if the pruned count is below the
cap it records `now` and returns allowed with `remaining = cap − newCount`;
otherwise it rejects with `remaining = 0` and
`retryAfterSeconds = window − (now − oldest) + 1 ≥ 1`.  Consequently over any
time-ordered sequence of calls at most `cap` timestamps are ever recorded
within any trailing window, and a further call whose window already holds
`cap` grants is rejected. -/
theorem rate_limit_check_and_record_spec
    (window : Int) (cap : Nat) (now tq nowq : Int) (ts calls : List Int)
    (hw : 0 ≤ window) (hcap : 0 < cap)
    (hts : ts.Sorted (· ≤ ·))
    (hcalls : calls.Sorted (· ≤ ·))
    (hcle : ∀ c ∈ calls, c ≤ nowq) :
    ((check_and_record window cap now ts).1 = true ↔
        (ts.filter (fun t => decide (now - window ≤ t))).length < cap) ∧
    ((check_and_record window cap now ts).1 = true →
        (check_and_record window cap now ts).2.2.2 =
          ts.filter (fun t => decide (now - window ≤ t)) ++ [now] ∧
        (check_and_record window cap now ts).2.2.1 =
          cap - ((ts.filter (fun t => decide (now - window ≤ t))).length + 1)) ∧
    ((check_and_record window cap now ts).1 = false →
        (check_and_record window cap now ts).2.2.2 =
          ts.filter (fun t => decide (now - window ≤ t)) ∧
        (check_and_record window cap now ts).2.2.1 = 0 ∧
        (check_and_record window cap now ts).2.1 =
          window -
            (now - (ts.filter (fun t => decide (now - window ≤ t))).headD 0)
            + 1 ∧
        1 ≤ (check_and_record window cap now ts).2.1) ∧
    grantsInWindow window (runCalls window cap calls).2 tq ≤ cap ∧
    (cap ≤ grantsInWindow window (runCalls window cap calls).2 nowq →
        (check_and_record window cap nowq (runCalls window cap calls).1).1 =
          false) := by
  have hmem := mem_filter_window window now ts
  constructor
  · by_cases h : (ts.filter (fun t => decide (now - window ≤ t))).length < cap
    · rw [check_and_record_pos window cap now ts hts hw h]
      simpa using h
    · rw [check_and_record_neg window cap now ts hts hw h]
      simpa using h
  constructor
  · intro hall
    by_cases h : (ts.filter (fun t => decide (now - window ≤ t))).length < cap
    · rw [check_and_record_pos window cap now ts hts hw h]
      exact ⟨rfl, rfl⟩
    · rw [check_and_record_neg window cap now ts hts hw h] at hall
      exact absurd hall (by simp)
  constructor
  · intro hrej
    by_cases h : (ts.filter (fun t => decide (now - window ≤ t))).length < cap
    · rw [check_and_record_pos window cap now ts hts hw h] at hrej
      exact absurd hrej (by simp)
    · have hne : ts.filter (fun t => decide (now - window ≤ t)) ≠ [] := by
        intro hnil
        rw [hnil] at h
        simp at h
        omega
      obtain ⟨a, t, hat⟩ := List.exists_cons_of_ne_nil hne
      have hamem : a ∈ ts.filter (fun t => decide (now - window ≤ t)) := by
        rw [hat]; exact List.mem_cons_self _ _
      have haw : now - window ≤ a := hmem a hamem
      have hhead : (ts.filter (fun t => decide (now - window ≤ t))).headD 0 = a := by
        rw [hat]; rfl
      have hone : 1 ≤ window - (now - a) + 1 := by omega
      rw [check_and_record_neg window cap now ts hts hw h]
      refine ⟨rfl, rfl, ?_, ?_⟩
      · simp only [hhead]
        omega
      · simp only [hhead]
        omega
  have hwin : ∀ tx, grantsInWindow window (runCalls window cap calls).2 tx ≤ cap := by
    intro tx
    cases calls with
    | nil =>
        simp only [runCalls, runFrom, grantsInWindow, List.filter_nil,
          List.length_nil]
        exact Nat.zero_le _
    | cons c0 crest =>
        rcases List.sorted_cons.mp hcalls with ⟨h0r, _⟩
        have h0 : ∀ c ∈ c0 :: crest, c0 ≤ c := by
          intro c hc
          rcases List.mem_cons.mp hc with rfl | hc
          · exact le_rfl
          · exact h0r c hc
        have hinv := runFrom_inv window cap hw (c0 :: crest) [] [] c0
          hcalls h0 (List.Pairwise.nil) (by intro g hg; cases hg)
          rfl (by intro t2; simp [grantsInWindow])
        exact hinv.2.1 tx
  refine ⟨hwin tq, ?_⟩
  intro hfull
  cases calls with
  | nil =>
      exfalso
      simp only [runCalls, runFrom, grantsInWindow, List.filter_nil,
        List.length_nil] at hfull
      omega
  | cons c0 crest =>
      rcases List.sorted_cons.mp hcalls with ⟨h0r, _⟩
      have h0 : ∀ c ∈ c0 :: crest, c0 ≤ c := by
        intro c hc
        rcases List.mem_cons.mp hc with rfl | hc
        · exact le_rfl
        · exact h0r c hc
      have hinv := runFrom_inv window cap hw (c0 :: crest) [] [] c0
        hcalls h0 (List.Pairwise.nil) (by intro g hg; cases hg)
        rfl (by intro t2; simp [grantsInWindow])
      rcases hinv with ⟨hgsort, _, b, hb, hgb, hstfin⟩
      have hbq : b ≤ nowq := by
        rcases hb with rfl | hb
        · exact hcle b (List.mem_cons_self _ _)
        · exact hcle b hb
      have hstS : (runFrom window cap (c0 :: crest) [] []).1.Sorted (· ≤ ·) :=
        hstfin ▸ hgsort.filter _
      have hprune2 :
          (runFrom window cap (c0 :: crest) [] []).1.filter
              (fun t => decide (nowq - window ≤ t)) =
            (runFrom window cap (c0 :: crest) [] []).2.filter
              (fun g => decide (nowq - window ≤ g)) := by
        rw [hstfin, List.filter_filter]
        apply List.filter_congr
        intro g _
        by_cases hg : nowq - window ≤ g
        · have hbg : b - window ≤ g := by omega
          simp only [decide_eq_true hg, decide_eq_true hbg, Bool.and_self]
        · simp only [decide_eq_false hg, Bool.false_and, Bool.and_false]
      have hsub : List.Sublist
          ((runFrom window cap (c0 :: crest) [] []).2.filter
            (inWindow window nowq))
          ((runFrom window cap (c0 :: crest) [] []).2.filter
            (fun g => decide (nowq - window ≤ g))) := by
        apply List.monotone_filter_right
        intro g hg
        unfold inWindow at hg
        simp only [Bool.and_eq_true, decide_eq_true_eq] at hg
        exact decide_eq_true hg.1
      have hge : ¬ ((runFrom window cap (c0 :: crest) [] []).1.filter
          (fun t => decide (nowq - window ≤ t))).length < cap := by
        rw [hprune2]
        have h1 := hsub.length_le
        unfold grantsInWindow runCalls at hfull
        omega
      show (check_and_record window cap nowq (runFrom window cap (c0 :: crest) [] []).1).1 = false
      rw [check_and_record_neg window cap nowq _ hstS hw hge]

/-- Witness for C1: a rejected third request with cap 2, window 60. -/
theorem rate_limit_check_and_record_spec_witness :
    (check_and_record 60 2 100 [10, 50, 90]).1 = false ∧
    (check_and_record 60 2 100 [10, 50, 90]).2.2.1 = 0 ∧
    1 ≤ (check_and_record 60 2 100 [10, 50, 90]).2.1 := by
  have h := rate_limit_check_and_record_spec 60 2 100 100 100 [10, 50, 90]
    [30, 50, 70] (by decide) (by decide) (by decide) (by decide) (by decide)
  have hrej : (check_and_record 60 2 100 [10, 50, 90]).1 = false := by decide
  have h3 := h.2.2.1 hrej
  exact ⟨hrej, h3.2.1, h3.2.2.2⟩

/-! ### The request model

`LLMRequest` (src/models/llm_request.py).  The dataclass fields; `datetime`
timestamps become `Int`, auto-generated defaults (uuid, utcnow) become
explicit field values supplied by the caller of the constructor. -/

structure LLMRequest where
  user_id : String
  group_id : String
  prompt : String
  system_prompt : String
  request_id : String
  timestamp : Int
  reply_token : Option String
  context_text : Option String
  context_image_base64 : Option String
  priority : Int
  max_retries : Nat
  retry_count : Nat
deriving DecidableEq, Repr

/-- `MAX_PROMPT_LENGTH` (src/models/llm_request.py). -/
def MAX_PROMPT_LENGTH : Nat := 4000

/-- `LLMRequest.can_retry`: `retry_count < max_retries`. -/
def can_retry (r : LLMRequest) : Bool :=
  decide (r.retry_count < r.max_retries)

/-- `LLMRequest.increment_retry`: `retry_count += 1`. -/
def increment_retry (r : LLMRequest) : LLMRequest :=
  { r with retry_count := r.retry_count + 1 }

/-! ### The queue service

`QueueService` (src/services/queue_service.py).  The `asyncio.Queue` becomes
a `List LLMRequest` (front = next to be dequeued); `put_nowait` raises
`QueueFull` exactly when `0 < maxsize ∧ qsize ≥ maxsize`. -/

/-- `QueueService.try_enqueue_nowait`: `put_nowait` then report
`current_size` (the 1-indexed position of the new item); on `QueueFull`
report `None` and leave the queue untouched. -/
def try_enqueue_nowait (max_size : Nat) (r : LLMRequest)
    (q : List LLMRequest) : Option Nat × List LLMRequest :=
  if 0 < max_size ∧ max_size ≤ q.length then (none, q)
  else (some ((q ++ [r]).length), q ++ [r])

/-- Statistics and queue state owned by the worker
(`_total_processed`, `_total_errors`, and the shared queue). -/
structure QueueState where
  queue : List LLMRequest
  total_processed : Nat
  total_errors : Nat
deriving DecidableEq, Repr

/-- The three outcomes of one `await wait_for(self._processor(request))`. -/
inductive ProcOutcome where
  | success
  | timeout
  | failure
deriving DecidableEq, Repr

/-- `QueueService._process_request`: on success count it processed; on
`asyncio.TimeoutError` count an error and drop the item; on any other
exception count an error and, if `request.can_retry`, increment the retry
counter and `put_nowait` it back (silently dropped when the queue is full). -/
def process_request (max_size : Nat) (outcome : ProcOutcome)
    (req : LLMRequest) (st : QueueState) : QueueState :=
  match outcome with
  | .success => { st with total_processed := st.total_processed + 1 }
  | .timeout => { st with total_errors := st.total_errors + 1 }
  | .failure =>
      let st1 := { st with total_errors := st.total_errors + 1 }
      if can_retry req then
        if 0 < max_size ∧ max_size ≤ st1.queue.length then st1
        else { st1 with queue := st1.queue ++ [increment_retry req] }
      else st1

/-- Folding a burst of `try_enqueue_nowait` attempts over the queue. -/
def enqueueAll (max_size : Nat) (reqs : List LLMRequest)
    (q : List LLMRequest) : List LLMRequest :=
  reqs.foldl (fun acc r => (try_enqueue_nowait max_size r acc).2) q

/-- **C2.** `try_enqueue_nowait` never blocks and never accepts a request
when the queue already holds `max_size` items: at capacity it returns `none`
and leaves the queue unchanged, otherwise it appends the request and returns
the 1-indexed position of the new item (the queue size including it); over
any burst of attempts the queue size never exceeds `max_size`. -/
theorem try_enqueue_nowait_spec (max_size : Nat) (r : LLMRequest)
    (q q0 : List LLMRequest) (reqs : List LLMRequest)
    (hm : 0 < max_size) (hq0 : q0.length ≤ max_size) :
    (max_size ≤ q.length →
        try_enqueue_nowait max_size r q = (none, q)) ∧
    (q.length < max_size →
        try_enqueue_nowait max_size r q =
          (some (q.length + 1), q ++ [r]) ∧
        (q ++ [r]).length = q.length + 1) ∧
    (enqueueAll max_size reqs q0).length ≤ max_size := by
  refine ⟨?_, ?_, ?_⟩
  · intro hfull
    unfold try_enqueue_nowait
    rw [if_pos ⟨hm, hfull⟩]
  · intro hlt
    unfold try_enqueue_nowait
    rw [if_neg (by omega)]
    simp
  · induction reqs generalizing q0 with
    | nil => exact hq0
    | cons a rest ih =>
        show (enqueueAll max_size (a :: rest) q0).length ≤ max_size
        unfold enqueueAll
        rw [List.foldl_cons]
        apply ih
        unfold try_enqueue_nowait
        by_cases hful : 0 < max_size ∧ max_size ≤ q0.length
        · rw [if_pos hful]
          exact hq0
        · rw [if_neg hful]
          have : q0.length < max_size := by omega
          simp only [List.length_append, List.length_singleton]
          omega

/-- Witness for C2: a full queue of 2 rejects, a queue of 1 accepts at
position 2. -/
theorem try_enqueue_nowait_spec_witness :
    (try_enqueue_nowait 2
        ⟨"", "", "p", "s", "id", 0, none, none, none, 0, 1, 0⟩
        [⟨"", "", "p", "s", "a", 0, none, none, none, 0, 1, 0⟩,
         ⟨"", "", "p", "s", "b", 0, none, none, none, 0, 1, 0⟩]).1 = none ∧
    (try_enqueue_nowait 2
        ⟨"", "", "p", "s", "id", 0, none, none, none, 0, 1, 0⟩
        [⟨"", "", "p", "s", "a", 0, none, none, none, 0, 1, 0⟩]).1 =
      some 2 := by
  have h2 := try_enqueue_nowait_spec 2
    ⟨"", "", "p", "s", "id", 0, none, none, none, 0, 1, 0⟩
    [⟨"", "", "p", "s", "a", 0, none, none, none, 0, 1, 0⟩,
     ⟨"", "", "p", "s", "b", 0, none, none, none, 0, 1, 0⟩]
    [] [] (by decide) (by decide)
  have h1 := try_enqueue_nowait_spec 2
    ⟨"", "", "p", "s", "id", 0, none, none, none, 0, 1, 0⟩
    [⟨"", "", "p", "s", "a", 0, none, none, none, 0, 1, 0⟩]
    [] [] (by decide) (by decide)
  constructor
  · rw [h2.1 (by decide)]
  · rw [(h1.2.1 (by decide)).1]
    rfl

/-- **C3.** Worker failure policy: a timeout increments the error count and
drops the item (never re-enqueues); any other processor exception increments
the error count and, only when the retry count is below the budget,
increments the retry count and attempts a non-blocking tail re-enqueue,
silently dropping the item when the queue is full. -/
theorem process_request_failure_policy (max_size : Nat) (req : LLMRequest)
    (st : QueueState) :
    ((process_request max_size .timeout req st).total_errors =
        st.total_errors + 1 ∧
     (process_request max_size .timeout req st).queue = st.queue ∧
     (process_request max_size .timeout req st).total_processed =
        st.total_processed) ∧
    ((process_request max_size .failure req st).total_errors =
        st.total_errors + 1) ∧
    (can_retry req = true → ¬ (0 < max_size ∧ max_size ≤ st.queue.length) →
        (process_request max_size .failure req st).queue =
          st.queue ++ [increment_retry req]) ∧
    (can_retry req = true → (0 < max_size ∧ max_size ≤ st.queue.length) →
        (process_request max_size .failure req st).queue = st.queue) ∧
    (can_retry req = false →
        (process_request max_size .failure req st).queue = st.queue) := by
  refine ⟨⟨rfl, rfl, rfl⟩, ?_, ?_, ?_, ?_⟩
  · show (process_request max_size .failure req st).total_errors =
        st.total_errors + 1
    unfold process_request
    by_cases hc : can_retry req = true
    · rw [if_pos hc]
      by_cases hful : 0 < max_size ∧ max_size ≤ st.queue.length
      · rw [if_pos hful]
      · rw [if_neg hful]
    · rw [if_neg hc]
  · intro hc hnful
    unfold process_request
    rw [if_pos hc, if_neg hnful]
  · intro hc hful
    unfold process_request
    rw [if_pos hc, if_pos hful]
  · intro hc
    unfold process_request
    rw [if_neg (by rw [hc]; exact Bool.false_ne_true)]

/-- Witness for C3: with a queue of capacity 1 already holding one item, a
failing retryable request is silently dropped; with an empty queue it is
re-enqueued at the tail. -/
theorem process_request_failure_policy_witness :
    (process_request 1 .failure
        ⟨"", "", "p", "s", "x", 0, none, none, none, 0, 1, 0⟩
        ⟨[⟨"", "", "p", "s", "y", 0, none, none, none, 0, 1, 0⟩], 0, 0⟩).queue =
      [⟨"", "", "p", "s", "y", 0, none, none, none, 0, 1, 0⟩] ∧
    (process_request 1 .failure
        ⟨"", "", "p", "s", "x", 0, none, none, none, 0, 1, 0⟩
        ⟨[], 0, 0⟩).queue =
      [⟨"", "", "p", "s", "x", 0, none, none, none, 0, 1, 1⟩] ∧
    (process_request 1 .timeout
        ⟨"", "", "p", "s", "x", 0, none, none, none, 0, 1, 0⟩
        ⟨[], 3, 4⟩).total_errors = 5 := by
  have hdrop := process_request_failure_policy 1
    ⟨"", "", "p", "s", "x", 0, none, none, none, 0, 1, 0⟩
    ⟨[⟨"", "", "p", "s", "y", 0, none, none, none, 0, 1, 0⟩], 0, 0⟩
  have hretry := process_request_failure_policy 1
    ⟨"", "", "p", "s", "x", 0, none, none, none, 0, 1, 0⟩
    ⟨[], 0, 0⟩
  have htime := process_request_failure_policy 1
    ⟨"", "", "p", "s", "x", 0, none, none, none, 0, 1, 0⟩
    ⟨[], 3, 4⟩
  refine ⟨?_, ?_, ?_⟩
  · rw [hdrop.2.2.2.1 (by decide) (by decide)]
  · rw [hretry.2.2.1 (by decide) (by decide)]
    rfl
  · rw [htime.1.1]

/-- **C6.** A retried request preserves every field except the retry
counter, which is incremented by exactly one; an item re-enqueued for
reprocessing never has a retry count above its budget, and the worker
re-enqueues exactly the incremented request at the tail. -/
theorem increment_retry_frame (max_size : Nat) (req : LLMRequest)
    (st : QueueState) (hc : can_retry req = true) :
    (increment_retry req).user_id = req.user_id ∧
    (increment_retry req).group_id = req.group_id ∧
    (increment_retry req).prompt = req.prompt ∧
    (increment_retry req).system_prompt = req.system_prompt ∧
    (increment_retry req).request_id = req.request_id ∧
    (increment_retry req).timestamp = req.timestamp ∧
    (increment_retry req).reply_token = req.reply_token ∧
    (increment_retry req).context_text = req.context_text ∧
    (increment_retry req).context_image_base64 = req.context_image_base64 ∧
    (increment_retry req).priority = req.priority ∧
    (increment_retry req).max_retries = req.max_retries ∧
    (increment_retry req).retry_count = req.retry_count + 1 ∧
    (increment_retry req).retry_count ≤ (increment_retry req).max_retries ∧
    (¬ (0 < max_size ∧ max_size ≤ st.queue.length) →
        (process_request max_size .failure req st).queue =
          st.queue ++ [increment_retry req]) := by
  have hlt : req.retry_count < req.max_retries := of_decide_eq_true hc
  refine ⟨rfl, rfl, rfl, rfl, rfl, rfl, rfl, rfl, rfl, rfl, rfl, rfl, ?_, ?_⟩
  · show req.retry_count + 1 ≤ req.max_retries
    omega
  · intro hnful
    unfold process_request
    rw [if_pos hc, if_neg hnful]

/-- Witness for C6: a concrete retryable request with budget 2. -/
theorem increment_retry_frame_witness :
    (increment_retry
        ⟨"", "", "p", "s", "x", 7, some "tok", some "ctx", none, 0, 2, 1⟩).retry_count = 2 ∧
    (increment_retry
        ⟨"", "", "p", "s", "x", 7, some "tok", some "ctx", none, 0, 2, 1⟩).prompt = "p" ∧
    (increment_retry
        ⟨"", "", "p", "s", "x", 7, some "tok", some "ctx", none, 0, 2, 1⟩).retry_count ≤ 2 := by
  have h := increment_retry_frame 10
    ⟨"", "", "p", "s", "x", 7, some "tok", some "ctx", none, 0, 2, 1⟩
    ⟨[], 0, 0⟩ (by decide)
  exact ⟨h.2.2.2.2.2.2.2.2.2.2.2.1, h.2.2.1, h.2.2.2.2.2.2.2.2.2.2.2.2.1⟩

/-! ### Message cache

src/services/message_cache_service.py.  The module-level `OrderedDict`
becomes an association list (front = oldest inserted); assigning to an
existing key of an `OrderedDict` updates the value **in place** (the key
keeps its position), a new key is appended at the back.  `time.time()` is the
explicit `now` parameter. -/

/-- One cached message value: `{"type": ..., "text": ..., "timestamp": ...}`. -/
structure CachedMsg where
  type : String
  text : Option String
  timestamp : Int
deriving DecidableEq, Repr

/-- The cache container type. -/
abbrev Cache : Type := List (String × CachedMsg)

/-- `_MAX_CACHE_SIZE`. -/
def MAX_CACHE_SIZE : Nat := 100

/-- `_CACHE_TTL_SECONDS`. -/
def CACHE_TTL_SECONDS : Int := 3600

/-- `OrderedDict.__setitem__`: replace in place when the key exists,
otherwise append at the back. -/
def odSet (k : String) (v : CachedMsg) (c : Cache) : Cache :=
  if (List.any c (fun p => decide (p.1 = k))) then
    List.map (fun p => if p.1 = k then (k, v) else p) c
  else c ++ [(k, v)]

/-- `cache_message`: set the entry, then `popitem(last=False)` once if the
size exceeds `_MAX_CACHE_SIZE`, then purge every entry whose age is over the
TTL. -/
def cache_message (message_id message_type : String) (text : Option String)
    (now : Int) (c : Cache) : Cache :=
  let c1 := odSet message_id ⟨message_type, text, now⟩ c
  let c2 := if MAX_CACHE_SIZE < c1.length then List.drop 1 c1 else c1
  List.filter (fun p => ! decide (CACHE_TTL_SECONDS < now - p.2.timestamp)) c2

/-- `get_cached_message`: a plain `dict.get` — no TTL check, no mutation. -/
def get_cached_message (message_id : String) (c : Cache) :
    Option CachedMsg :=
  (List.find? (fun p => decide (p.1 = message_id)) c).map (fun p => p.2)

/-- The Python read runs no mutation at all; as a state transformer it
returns the looked-up value and the untouched cache. -/
def get_cached_message_step (message_id : String) (c : Cache) :
    Option CachedMsg × Cache :=
  (get_cached_message message_id c, c)

/-- Insert a list of ids (as text messages at time 0), left to right. -/
def insertAll (ids : List String) (c : Cache) : Cache :=
  ids.foldl (fun acc i => cache_message i "text" none 0 acc) c

/-- `put` as the spec words it: "insert-or-replace at the back" — the entry
moves to the most-recently-inserted position. -/
def cache_put_spec (message_id message_type : String) (text : Option String)
    (now : Int) (c : Cache) : Cache :=
  let c1 := List.filter (fun p => ! decide (p.1 = message_id)) c ++
    [(message_id, ⟨message_type, text, now⟩)]
  let c2 := if MAX_CACHE_SIZE < c1.length then List.drop 1 c1 else c1
  List.filter (fun p => ! decide (CACHE_TTL_SECONDS < now - p.2.timestamp)) c2

/-! #### Cache helper lemmas -/

theorem pairs_eq_of_nodup_keys (c : Cache) :
    (c.map Prod.fst).Nodup → ∀ p ∈ c, ∀ q ∈ c, p.1 = q.1 → p = q := by
  induction c with
  | nil => intro _ p hp; exact absurd hp (List.not_mem_nil p)
  | cons x t ih =>
      intro hnd p hp q hq hpq
      rw [List.map_cons, List.nodup_cons] at hnd
      rcases List.mem_cons.mp hp with hpx | hpt
      · rcases List.mem_cons.mp hq with hqx | hqt
        · rw [hpx, hqx]
        · exfalso
          apply hnd.1
          rw [← hpx, hpq]
          exact List.mem_map_of_mem Prod.fst hqt
      · rcases List.mem_cons.mp hq with hqx | hqt
        · exfalso
          apply hnd.1
          rw [← hqx, ← hpq]
          exact List.mem_map_of_mem Prod.fst hpt
        · exact ih hnd.2 p hpt q hqt hpq

theorem mem_odSet_cases (k : String) (v : CachedMsg) (c : Cache) (p) :
    p ∈ odSet k v c → p = (k, v) ∨ (p ∈ c ∧ p.1 ≠ k) := by
  intro hp
  unfold odSet at hp
  by_cases hany : List.any c (fun p => decide (p.1 = k)) = true
  · rw [if_pos hany] at hp
    rcases List.mem_map.mp hp with ⟨q, hq, hfq⟩
    by_cases hqk : q.1 = k
    · rw [if_pos hqk] at hfq
      exact Or.inl hfq.symm
    · rw [if_neg hqk] at hfq
      exact Or.inr ⟨hfq ▸ hq, hfq ▸ hqk⟩
  · rw [if_neg hany] at hp
    rcases List.mem_append.mp hp with hp | hp
    · refine Or.inr ⟨hp, fun hk => hany ?_⟩
      exact List.any_eq_true.mpr ⟨p, hp, decide_eq_true hk⟩
    · exact Or.inl (List.mem_singleton.mp hp)

theorem odSet_keys_of_mem (k : String) (v : CachedMsg) (c : Cache)
    (h : k ∈ c.map Prod.fst) :
    (odSet k v c).map Prod.fst = c.map Prod.fst ∧
    (odSet k v c).length = c.length := by
  have hany : List.any c (fun p => decide (p.1 = k)) = true := by
    rcases List.mem_map.mp h with ⟨q, hq, hk⟩
    exact List.any_eq_true.mpr ⟨q, hq, decide_eq_true hk⟩
  unfold odSet
  rw [if_pos hany]
  constructor
  · rw [List.map_map]
    apply List.map_congr_left
    intro a _
    by_cases ha : a.1 = k
    · simp only [Function.comp_apply, if_pos ha]
      exact ha.symm
    · simp only [Function.comp_apply, if_neg ha]
  · exact List.length_map c _

theorem odSet_of_not_mem (k : String) (v : CachedMsg) (c : Cache)
    (h : k ∉ c.map Prod.fst) :
    odSet k v c = c ++ [(k, v)] := by
  have hany : ¬ List.any c (fun p => decide (p.1 = k)) = true := by
    intro hany
    rcases List.any_eq_true.mp hany with ⟨q, hq, hk⟩
    exact h (of_decide_eq_true hk ▸ List.mem_map_of_mem Prod.fst hq)
  unfold odSet
  rw [if_neg hany]

theorem new_entry_fresh (ty : String) (tx : Option String) (now : Int) :
    ¬ CACHE_TTL_SECONDS < now - (CachedMsg.mk ty tx now).timestamp := by
  show ¬ CACHE_TTL_SECONDS < now - now
  unfold CACHE_TTL_SECONDS
  omega

theorem filter_fresh_eq_self (now : Int) (c : Cache)
    (h : ∀ p ∈ c, ¬ CACHE_TTL_SECONDS < now - p.2.timestamp) :
    List.filter
        (fun p => ! decide (CACHE_TTL_SECONDS < now - p.2.timestamp)) c = c := by
  apply List.filter_eq_self.mpr
  intro p hp
  rw [decide_eq_false (h p hp)]
  rfl

/-- `cache_message` with a fresh new key and a non-full, unexpired cache is a
plain append at the back. -/
theorem cache_message_not_full (id ty : String) (tx : Option String)
    (now : Int) (c : Cache)
    (habs : id ∉ c.map Prod.fst) (hlen : c.length < MAX_CACHE_SIZE)
    (hfresh : ∀ p ∈ c, ¬ CACHE_TTL_SECONDS < now - p.2.timestamp) :
    cache_message id ty tx now c = c ++ [(id, ⟨ty, tx, now⟩)] := by
  simp only [cache_message]
  rw [odSet_of_not_mem id _ c habs]
  have hlen2 : ¬ MAX_CACHE_SIZE < (c ++ [(id, (⟨ty, tx, now⟩ : CachedMsg))]).length := by
    rw [List.length_append, List.length_singleton]
    omega
  rw [if_neg hlen2]
  apply filter_fresh_eq_self
  intro p hp
  rcases List.mem_append.mp hp with hp | hp
  · exact hfresh p hp
  · rcases List.mem_singleton.mp hp with rfl
    exact new_entry_fresh ty tx now

/-- `cache_message` with a fresh new key on a full, unexpired cache evicts
exactly the front (oldest-inserted) entry. -/
theorem cache_message_full (id ty : String) (tx : Option String)
    (now : Int) (c : Cache)
    (habs : id ∉ c.map Prod.fst) (hlen : c.length = MAX_CACHE_SIZE)
    (hfresh : ∀ p ∈ c, ¬ CACHE_TTL_SECONDS < now - p.2.timestamp) :
    cache_message id ty tx now c = c.drop 1 ++ [(id, ⟨ty, tx, now⟩)] := by
  simp only [cache_message]
  rw [odSet_of_not_mem id _ c habs]
  have hlen2 : MAX_CACHE_SIZE < (c ++ [(id, (⟨ty, tx, now⟩ : CachedMsg))]).length := by
    rw [List.length_append, List.length_singleton]
    omega
  rw [if_pos hlen2]
  have hc1 : 1 ≤ c.length := by
    unfold MAX_CACHE_SIZE at hlen
    omega
  rw [List.drop_append_of_le_length hc1]
  apply filter_fresh_eq_self
  intro p hp
  rcases List.mem_append.mp hp with hp | hp
  · exact hfresh p (List.drop_subset 1 c hp)
  · rcases List.mem_singleton.mp hp with rfl
    exact new_entry_fresh ty tx now

/-- `cache_message` on an existing key of an unexpired cache replaces the
value in place: the key order (and hence the eviction order) is unchanged. -/
theorem cache_message_update_keys (id ty : String) (tx : Option String)
    (now : Int) (c : Cache)
    (hpres : id ∈ c.map Prod.fst) (hlen : c.length ≤ MAX_CACHE_SIZE)
    (hfresh : ∀ p ∈ c, ¬ CACHE_TTL_SECONDS < now - p.2.timestamp) :
    (cache_message id ty tx now c).map Prod.fst = c.map Prod.fst := by
  simp only [cache_message]
  have hk := odSet_keys_of_mem id ⟨ty, tx, now⟩ c hpres
  have hlen2 : ¬ MAX_CACHE_SIZE <
      (odSet id (⟨ty, tx, now⟩ : CachedMsg) c).length := by
    rw [hk.2]; omega
  rw [if_neg hlen2]
  have hfresh2 : ∀ p ∈ odSet id (⟨ty, tx, now⟩ : CachedMsg) c,
      ¬ CACHE_TTL_SECONDS < now - p.2.timestamp := by
    intro p hp
    rcases mem_odSet_cases id _ c p hp with rfl | ⟨hp, _⟩
    · exact new_entry_fresh ty tx now
    · exact hfresh p hp
  rw [filter_fresh_eq_self now _ hfresh2]
  exact hk.1

/-- Folding distinct fresh inserts: the cache keys are the last
`MAX_CACHE_SIZE` of the keys ever inserted, in insertion order. -/
theorem insertAll_invariant :
    ∀ (ids : List String) (c : Cache),
      ((c.map Prod.fst) ++ ids).Nodup →
      (∀ p ∈ c, p.2.timestamp = 0) →
      c.length ≤ MAX_CACHE_SIZE →
      (insertAll ids c).map Prod.fst =
        ((c.map Prod.fst) ++ ids).drop
          ((c.length + ids.length) - MAX_CACHE_SIZE) ∧
      (∀ p ∈ insertAll ids c, p.2.timestamp = 0) ∧
      (insertAll ids c).length = min (c.length + ids.length) MAX_CACHE_SIZE
  | [], c, _, hts, hlen => by
    refine ⟨?_, hts, ?_⟩
    · have h0 : (c.length + ([] : List String).length) - MAX_CACHE_SIZE = 0 := by
        simp only [List.length_nil, Nat.add_zero]
        omega
      rw [h0, List.append_nil, List.drop_zero]
      rfl
    · simp only [List.length_nil, Nat.add_zero]
      exact (Nat.min_eq_left hlen).symm
  | i :: ids, c, hnd, hts, hlen => by
    have hstep : insertAll (i :: ids) c =
        insertAll ids (cache_message i "text" none 0 c) := by
      unfold insertAll
      rw [List.foldl_cons]
    have hnd2 := hnd
    rw [List.nodup_append] at hnd2
    have hi_notin : i ∉ c.map Prod.fst := fun hmem =>
      hnd2.2.2 hmem (List.mem_cons_self _ _)
    have hfresh : ∀ p ∈ c, ¬ CACHE_TTL_SECONDS < 0 - p.2.timestamp := by
      intro p hp
      rw [hts p hp]
      unfold CACHE_TTL_SECONDS
      omega
    by_cases hfull : c.length < MAX_CACHE_SIZE
    · -- not yet full: plain append
      have hc' := cache_message_not_full i "text" none 0 c hi_notin hfull hfresh
      have hkeys : (cache_message i "text" none 0 c).map Prod.fst =
          c.map Prod.fst ++ [i] := by
        rw [hc', List.map_append]
        rfl
      have hts2 : ∀ p ∈ cache_message i "text" none 0 c, p.2.timestamp = 0 := by
        intro p hp
        rw [hc'] at hp
        rcases List.mem_append.mp hp with hp | hp
        · exact hts p hp
        · rcases List.mem_singleton.mp hp with rfl; rfl
      have hlen2 : (cache_message i "text" none 0 c).length =
          c.length + 1 := by
        rw [hc', List.length_append, List.length_singleton]
      have hnd3 : ((cache_message i "text" none 0 c).map Prod.fst ++ ids).Nodup := by
        rw [hkeys, List.append_assoc, List.singleton_append]
        exact hnd
      have hih := insertAll_invariant ids (cache_message i "text" none 0 c)
        hnd3 hts2 (by omega)
      rw [hstep]
      refine ⟨?_, hih.2.1, ?_⟩
      · rw [hih.1, hkeys, hlen2, List.append_assoc, List.singleton_append,
          List.length_cons]
        have : c.length + 1 + ids.length = c.length + (ids.length + 1) := by
          omega
        rw [this]
      · rw [hih.2.2, hlen2, List.length_cons]
        have : c.length + 1 + ids.length = c.length + (ids.length + 1) := by
          omega
        rw [this]
    · -- full: evict the front, append at the back
      have hfull2 : c.length = MAX_CACHE_SIZE :=
        Nat.le_antisymm hlen (Nat.not_lt.mp hfull)
      have hc' := cache_message_full i "text" none 0 c hi_notin hfull2 hfresh
      have hM1 : 1 ≤ MAX_CACHE_SIZE := by unfold MAX_CACHE_SIZE; omega
      have hkeys : (cache_message i "text" none 0 c).map Prod.fst =
          (c.map Prod.fst).drop 1 ++ [i] := by
        rw [hc', List.map_append, List.map_drop]
        rfl
      have hts2 : ∀ p ∈ cache_message i "text" none 0 c, p.2.timestamp = 0 := by
        intro p hp
        rw [hc'] at hp
        rcases List.mem_append.mp hp with hp | hp
        · exact hts p (List.drop_subset 1 c hp)
        · rcases List.mem_singleton.mp hp with rfl; rfl
      have hlen2 : (cache_message i "text" none 0 c).length =
          MAX_CACHE_SIZE := by
        rw [hc', List.length_append, List.length_singleton, List.length_drop]
        omega
      have hklen : (c.map Prod.fst).length = MAX_CACHE_SIZE := by
        rw [List.length_map]
        exact hfull2
      have hnd3 : ((cache_message i "text" none 0 c).map Prod.fst ++ ids).Nodup := by
        rw [hkeys, List.append_assoc, List.singleton_append]
        apply List.Nodup.sublist _ hnd
        exact List.Sublist.append (List.drop_sublist 1 _) (List.Sublist.refl _)
      have hlenle : (cache_message i "text" none 0 c).length ≤
          MAX_CACHE_SIZE := by
        rw [hlen2]
      have hih := insertAll_invariant ids (cache_message i "text" none 0 c)
        hnd3 hts2 hlenle
      rw [hstep]
      refine ⟨?_, hih.2.1, ?_⟩
      · rw [hih.1, hkeys, hlen2, List.length_cons]
        have hidx1 : (MAX_CACHE_SIZE + ids.length) - MAX_CACHE_SIZE =
            ids.length := by omega
        have hidx2 : (c.length + (ids.length + 1)) - MAX_CACHE_SIZE =
            ids.length + 1 := by omega
        rw [hidx1, hidx2, List.append_assoc, List.singleton_append]
        have hdd : (c.map Prod.fst ++ (i :: ids)).drop (ids.length + 1) =
            ((c.map Prod.fst ++ (i :: ids)).drop 1).drop ids.length := by
          rw [List.drop_drop]
          have h11 : ids.length + 1 = 1 + ids.length := by omega
          rw [h11]
        have hdk : (c.map Prod.fst ++ (i :: ids)).drop 1 =
            (c.map Prod.fst).drop 1 ++ (i :: ids) :=
          List.drop_append_of_le_length (by rw [hklen]; exact hM1)
        rw [hdd, hdk]
      · rw [hih.2.2, hlen2, List.length_cons]
        have hmin1 : min (MAX_CACHE_SIZE + ids.length) MAX_CACHE_SIZE =
            MAX_CACHE_SIZE := Nat.min_eq_right (Nat.le_add_right _ _)
        have hmin2 : min (c.length + (ids.length + 1)) MAX_CACHE_SIZE =
            MAX_CACHE_SIZE := by
          apply Nat.min_eq_right
          omega
        rw [hmin1, hmin2]

/-- **C4 as stated is false**: an entry cached at time 0 is still returned by
`get_cached_message` even when (at lookup time 4000) its age exceeds the TTL,
because `get` is a plain `dict.get` with no TTL check. -/
theorem get_cached_message_ttl_cex :
    get_cached_message "m1" (cache_message "m1" "text" (some "hi") 0 []) =
      some ⟨"text", some "hi", 0⟩ ∧
    CACHE_TTL_SECONDS < (4000 : Int) - (0 : Int) := by
  constructor
  · rfl
  · decide

/-- **C4 (amended).** `get` on the message cache ignores the TTL and returns
whatever is currently stored; an expired entry stops being returned only
once a later insert (of a different id) has purged it, and an id that was
never inserted is a miss. -/
theorem get_cached_message_ttl_amended (c : Cache) (id id2 ty : String)
    (tx : Option String) (e : CachedMsg) (now : Int)
    (hnd : (c.map Prod.fst).Nodup)
    (hget : get_cached_message id c = some e)
    (hexp : CACHE_TTL_SECONDS < now - e.timestamp)
    (hne : id2 ≠ id) :
    get_cached_message id (cache_message id2 ty tx now c) = none ∧
    get_cached_message id ([] : Cache) = none := by
  refine ⟨?_, rfl⟩
  cases hfind : List.find? (fun p => decide (p.1 = id)) c with
  | none =>
      unfold get_cached_message at hget
      rw [hfind] at hget
      exact absurd hget (by simp)
  | some pr =>
      unfold get_cached_message at hget
      rw [hfind] at hget
      have hpre : pr.2 = e := by
        simpa using hget
      have hpr_mem : pr ∈ c := List.mem_of_find?_eq_some hfind
      have hkeyb := List.find?_some hfind
      have hpr_key : pr.1 = id := by simpa using hkeyb
      unfold get_cached_message
      have hnone :
          List.find? (fun p => decide (p.1 = id))
            (cache_message id2 ty tx now c) = none := by
        rw [List.find?_eq_none]
        intro p hp
        simp only [decide_eq_true_eq]
        intro hpk
        simp only [cache_message] at hp
        have hp2 := List.mem_filter.mp hp
        have hkeep : ¬ CACHE_TTL_SECONDS < now - p.2.timestamp := by
          have hb := hp2.2
          simp only [Bool.not_eq_eq_eq_not, Bool.not_true,
            decide_eq_false_iff_not] at hb
          exact hb
        have hp1 : p ∈ odSet id2 (⟨ty, tx, now⟩ : CachedMsg) c := by
          have hpc2 := hp2.1
          by_cases hdrop : MAX_CACHE_SIZE <
              (odSet id2 (⟨ty, tx, now⟩ : CachedMsg) c).length
          · rw [if_pos hdrop] at hpc2
            exact List.drop_subset 1 _ hpc2
          · rw [if_neg hdrop] at hpc2
            exact hpc2
        rcases mem_odSet_cases id2 _ c p hp1 with heq | ⟨hpc, _⟩
        · apply hne
          rw [← hpk, heq]
        · have hpp : p = pr :=
            pairs_eq_of_nodup_keys c hnd p hpc pr hpr_mem
              (hpk.trans hpr_key.symm)
          rw [hpp, hpre] at hkeep
          exact hkeep hexp
      rw [hnone]
      rfl

/-- Witness for C4 (amended): the expired "m1" entry is purged by a later
insert of "m2" and then missed. -/
theorem get_cached_message_ttl_amended_witness :
    get_cached_message "m1"
      (cache_message "m2" "text" none 4000
        (cache_message "m1" "text" (some "hi") 0 [])) = none ∧
    get_cached_message "m1" ([] : Cache) = none :=
  get_cached_message_ttl_amended
    (cache_message "m1" "text" (some "hi") 0 []) "m1" "m2" "text" none
    ⟨"text", some "hi", 0⟩ 4000 (by decide) (by decide) (by decide)
    (by decide)

/-- **C5 as stated is false**: re-inserting an existing id does *not* move
its entry to the most-recently-inserted position.  After inserting "a", "b"
and then "a" again, the code's eviction order is still `["a", "b"]`, whereas
the spec's insert-or-replace-at-the-back contract gives `["b", "a"]`. -/
theorem cache_message_moveback_cex :
    (cache_message "a" "t" none 0
        (cache_message "b" "t" none 0
          (cache_message "a" "t" none 0 []))).map Prod.fst = ["a", "b"] ∧
    (cache_put_spec "a" "t" none 0
        (cache_put_spec "b" "t" none 0
          (cache_put_spec "a" "t" none 0 []))).map Prod.fst = ["b", "a"] := by
  constructor
  · rfl
  · rfl

/-- **C5 (amended).** The message cache is a bounded ordered map in which
put *appends new ids at the back and replaces an existing id in place,
keeping its original position in the eviction order*; once the size exceeds
the capacity the front (oldest-inserted) entry is evicted, so inserting
`capacity + 1` distinct ids evicts exactly the first-inserted one. -/
theorem cache_message_eviction_amended (c : Cache) (id ty : String)
    (tx : Option String) (now : Int) (ids : List String) :
    (id ∈ c.map Prod.fst → c.length ≤ MAX_CACHE_SIZE →
        (∀ p ∈ c, ¬ CACHE_TTL_SECONDS < now - p.2.timestamp) →
        (cache_message id ty tx now c).map Prod.fst = c.map Prod.fst) ∧
    (id ∉ c.map Prod.fst → c.length = MAX_CACHE_SIZE →
        (∀ p ∈ c, ¬ CACHE_TTL_SECONDS < now - p.2.timestamp) →
        cache_message id ty tx now c = c.drop 1 ++ [(id, ⟨ty, tx, now⟩)]) ∧
    (ids.Nodup → ids.length = MAX_CACHE_SIZE + 1 →
        (insertAll ids []).map Prod.fst = ids.drop 1) := by
  refine ⟨?_, ?_, ?_⟩
  · intro hpres hlen hfresh
    exact cache_message_update_keys id ty tx now c hpres hlen hfresh
  · intro habs hlen hfresh
    exact cache_message_full id ty tx now c habs hlen hfresh
  · intro hnd hlen
    have h := insertAll_invariant ids []
      (by simpa using hnd) (by intro p hp; cases hp) (by
        show 0 ≤ MAX_CACHE_SIZE
        exact Nat.zero_le _)
    have hidx : (List.length ([] : Cache) + ids.length) - MAX_CACHE_SIZE = 1 := by
      simp only [List.length_nil]
      omega
    rw [h.1, hidx]
    rfl

/-- Witness for C5 (amended): 101 distinct single-character-run ids. -/
theorem cache_message_eviction_amended_witness :
    (insertAll ((List.range (MAX_CACHE_SIZE + 1)).map
        (fun n => String.mk (List.replicate n 'a'))) []).map Prod.fst =
      ((List.range (MAX_CACHE_SIZE + 1)).map
        (fun n => String.mk (List.replicate n 'a'))).drop 1 := by
  have hinj : ∀ n m : Nat,
      String.mk (List.replicate n 'a') = String.mk (List.replicate m 'a') →
      n = m := by
    intro n m h
    have hlen := congrArg (fun s => s.data.length) h
    simpa using hlen
  have hnd : ((List.range (MAX_CACHE_SIZE + 1)).map
      (fun n => String.mk (List.replicate n 'a'))).Nodup := by
    apply List.Nodup.map_on
    · intro n _ m _ h
      exact hinj n m h
    · exact List.nodup_range _
  have hlen : ((List.range (MAX_CACHE_SIZE + 1)).map
      (fun n => String.mk (List.replicate n 'a'))).length =
      MAX_CACHE_SIZE + 1 := by
    rw [List.length_map, List.length_range]
  exact (cache_message_eviction_amended [] "x" "t" none 0 _).2.2 hnd hlen

/-- **C9.** A lookup in the message cache is a pure read: it leaves the
cache state completely unchanged (no eviction, no TTL purge, no
reordering), even when repeated arbitrarily often, and its result is exactly
the association-list lookup. -/
theorem get_cached_message_pure (id : String) (c : Cache)
    (ids : List String) :
    (get_cached_message_step id c).2 = c ∧
    (get_cached_message_step id c).1 = get_cached_message id c ∧
    List.foldl (fun s i => (get_cached_message_step i s).2) c ids = c := by
  refine ⟨rfl, rfl, ?_⟩
  induction ids with
  | nil => rfl
  | cons i rest ih => exact ih

/-! ### Request validation

`LLMRequest.validate` (src/models/llm_request.py).  `str.strip()` is modelled
over the ASCII whitespace classes; the regex patterns `^U[a-f0-9]{32}$` etc.
are modelled including the Python `$` subtlety (a match may end just before
one trailing newline); the four `ValueError` branches become an error
enumeration. -/

/-- The whitespace characters stripped by `str.strip()` (ASCII classes). -/
def isPySpace (c : Char) : Bool :=
  c = ' ' || c = '\t' || c = '\n' || c = '\r' || c = '\x0b' || c = '\x0c'

/-- `str.strip()` on the character list. -/
def pyStripList (l : List Char) : List Char :=
  ((l.dropWhile isPySpace).reverse.dropWhile isPySpace).reverse

/-- `str.strip()`. -/
def pyStrip (s : String) : String :=
  String.mk (pyStripList s.data)

/-- `[a-f0-9]`. -/
def isHexLowerDigit (c : Char) : Bool :=
  ('a' ≤ c && c ≤ 'f') || ('0' ≤ c && c ≤ '9')

/-- The body of `^P[a-f0-9]{32}$` against a whole character list. -/
def matchesIdCore (pfx : Char) : List Char → Bool
  | c :: rest => c = pfx && decide (rest.length = 32) && rest.all isHexLowerDigit
  | [] => false

/-- `re.match` with pattern `^P[a-f0-9]{32}$`: `$` also matches just before
a single trailing newline. -/
def reMatchId (pfx : Char) (s : String) : Bool :=
  matchesIdCore pfx s.data ||
  (match s.data.getLast? with
   | some c => c = '\n' && matchesIdCore pfx s.data.dropLast
   | none => false)

/-- `LLMRequest._is_valid_line_id`. -/
def is_valid_line_id (id_value : String) (id_type : String) : Bool :=
  if id_value = "" then false
  else if id_type = "user" then reMatchId 'U' id_value
  else if id_type = "group" then
    reMatchId 'C' id_value || reMatchId 'R' id_value || reMatchId 'U' id_value
  else false

/-- The `ValueError` branches of `LLMRequest.validate`. -/
inductive ValidationError where
  | promptEmpty
  | promptTooLong
  | invalidUserId
  | invalidGroupId
deriving DecidableEq, Repr

/-- `LLMRequest.validate` (also run by `__post_init__`): reject an
empty/whitespace-only prompt, then an over-long *raw* prompt, then strip the
prompt in place, then check the id shapes of the non-empty ids. -/
def LLMRequest.validate (r : LLMRequest) : Except ValidationError LLMRequest :=
  if r.prompt = "" ∨ pyStrip r.prompt = "" then .error .promptEmpty
  else if MAX_PROMPT_LENGTH < r.prompt.length then .error .promptTooLong
  else
    let r2 : LLMRequest := { r with prompt := pyStrip r.prompt }
    if r2.user_id ≠ "" ∧ is_valid_line_id r2.user_id "user" = false then
      .error .invalidUserId
    else if r2.group_id ≠ "" ∧ is_valid_line_id r2.group_id "group" = false then
      .error .invalidGroupId
    else .ok r2

/-! #### Strip helper lemmas -/

theorem dropWhile_head_not {α : Type} (p : α → Bool) :
    ∀ (l : List α) (a : α) (t : List α), l.dropWhile p = a :: t → p a = false
  | [], a, t, h => by simp [List.dropWhile] at h
  | x :: xs, a, t, h => by
    by_cases hx : p x = true
    · rw [List.dropWhile_cons, if_pos hx] at h
      exact dropWhile_head_not p xs a t h
    · rw [List.dropWhile_cons, if_neg hx] at h
      rw [← (List.cons.inj h).1]
      exact Bool.eq_false_iff.mpr hx

theorem dropWhile_idem {α : Type} (p : α → Bool) (l : List α) :
    (l.dropWhile p).dropWhile p = l.dropWhile p :=
  dropWhile_eq_self_of_head p _ (dropWhile_head_not p l)

theorem pyStripList_idem (l : List Char) :
    pyStripList (pyStripList l) = pyStripList l := by
  -- the outcome of one strip has no leading whitespace character …
  have hfront :
      (pyStripList l).dropWhile isPySpace = pyStripList l := by
    apply dropWhile_eq_self_of_head
    intro a t hat
    have hsufr : List.IsSuffix (pyStripList l).reverse
        (l.dropWhile isPySpace).reverse := by
      show List.IsSuffix
        ((l.dropWhile isPySpace).reverse.dropWhile isPySpace).reverse.reverse _
      rw [List.reverse_reverse]
      exact List.dropWhile_suffix _
    have hpre : List.IsPrefix (pyStripList l) (l.dropWhile isPySpace) :=
      List.reverse_suffix.mp hsufr
    rcases hpre with ⟨s, hs⟩
    rw [hat] at hs
    exact dropWhile_head_not isPySpace l a (t ++ s) (by rw [← hs]; rfl)
  -- … and, reversed, it is itself the outcome of a `dropWhile`
  have hback : (pyStripList l).reverse =
      (l.dropWhile isPySpace).reverse.dropWhile isPySpace := by
    show ((l.dropWhile isPySpace).reverse.dropWhile isPySpace).reverse.reverse = _
    rw [List.reverse_reverse]
  show (((pyStripList l).dropWhile isPySpace).reverse.dropWhile
      isPySpace).reverse = pyStripList l
  rw [hfront, hback, dropWhile_idem, ← hback, List.reverse_reverse]

theorem pyStrip_idem (s : String) : pyStrip (pyStrip s) = pyStrip s := by
  unfold pyStrip
  rw [pyStripList_idem]

/-- **C7 as stated is false**: an originating-identity that matches the
*group* shape `C[a-f0-9]{32}` — one of the three identifier shapes — is
nevertheless rejected, because the code requires the originating-identity to
match the *user* shape only. -/
theorem validate_user_shape_cex :
    LLMRequest.validate
        ⟨"Caaaaaaaaaaaaaaaaaaaaaaaaaaaaaaaa", "", "hi", "sys", "x", 0,
         none, none, none, 0, 1, 0⟩ =
      Except.error ValidationError.invalidUserId ∧
    (reMatchId 'C' "Caaaaaaaaaaaaaaaaaaaaaaaaaaaaaaaa" ||
     reMatchId 'R' "Caaaaaaaaaaaaaaaaaaaaaaaaaaaaaaaa" ||
     reMatchId 'U' "Caaaaaaaaaaaaaaaaaaaaaaaaaaaaaaaa") = true ∧
    pyStrip "hi" ≠ "" ∧ ("hi" : String).length ≤ MAX_PROMPT_LENGTH := by
  refine ⟨by rfl, by decide, by decide, by decide⟩

/-- **C7 (amended).** Request construction raises a validation failure
exactly when the prompt is empty or whitespace-only, the *raw* prompt
exceeds 4000 characters, a present originating-identity fails to match the
*user* identifier shape, or a present conversation-identity fails to match
one of the three identifier shapes (user/group/room); after successful
construction the prompt is non-empty and trimmed. -/
theorem validate_amended (r : LLMRequest) :
    ((LLMRequest.validate r).isOk = true ↔
      (pyStrip r.prompt ≠ "" ∧ r.prompt.length ≤ MAX_PROMPT_LENGTH ∧
       (r.user_id = "" ∨ is_valid_line_id r.user_id "user" = true) ∧
       (r.group_id = "" ∨ is_valid_line_id r.group_id "group" = true))) ∧
    (∀ r2, LLMRequest.validate r = .ok r2 →
       r2 = { r with prompt := pyStrip r.prompt } ∧
       r2.prompt ≠ "" ∧ pyStrip r2.prompt = r2.prompt) := by
  simp only [LLMRequest.validate]
  by_cases h1 : r.prompt = "" ∨ pyStrip r.prompt = ""
  · rw [if_pos h1]
    have hps : pyStrip r.prompt = "" := by
      rcases h1 with h1 | h1
      · rw [h1]; rfl
      · exact h1
    constructor
    · constructor
      · intro habs
        exact absurd habs (by simp [Except.isOk, Except.toBool])
      · intro hrhs
        exact absurd hps hrhs.1
    · intro r2 habs
      exact absurd habs (by simp)
  · rw [if_neg h1]
    rcases not_or.mp h1 with ⟨hpne, hpsne⟩
    by_cases h2 : MAX_PROMPT_LENGTH < r.prompt.length
    · rw [if_pos h2]
      constructor
      · constructor
        · intro habs
          exact absurd habs (by simp [Except.isOk, Except.toBool])
        · intro hrhs
          exact absurd hrhs.2.1 (not_le.mpr h2)
      · intro r2 habs
        exact absurd habs (by simp)
    · rw [if_neg h2]
      by_cases h3 : r.user_id ≠ "" ∧ is_valid_line_id r.user_id "user" = false
      · rw [if_pos h3]
        constructor
        · constructor
          · intro habs
            exact absurd habs (by simp [Except.isOk, Except.toBool])
          · intro hrhs
            rcases hrhs.2.2.1 with hu | hu
            · exact (h3.1 hu).elim
            · rw [h3.2] at hu
              exact absurd hu (by simp)
        · intro r2 habs
          exact absurd habs (by simp)
      · rw [if_neg h3]
        by_cases h4 : r.group_id ≠ "" ∧
            is_valid_line_id r.group_id "group" = false
        · rw [if_pos h4]
          constructor
          · constructor
            · intro habs
              exact absurd habs (by simp [Except.isOk, Except.toBool])
            · intro hrhs
              rcases hrhs.2.2.2 with hg | hg
              · exact (h4.1 hg).elim
              · rw [h4.2] at hg
                exact absurd hg (by simp)
          · intro r2 habs
            exact absurd habs (by simp)
        · rw [if_neg h4]
          constructor
          · constructor
            · intro _
              refine ⟨hpsne, not_lt.mp h2, ?_, ?_⟩
              · by_cases hu : r.user_id = ""
                · exact Or.inl hu
                · refine Or.inr ?_
                  rcases Bool.eq_false_or_eq_true
                      (is_valid_line_id r.user_id "user") with hb | hb
                  · exact hb
                  · exact absurd ⟨hu, hb⟩ h3
              · by_cases hg : r.group_id = ""
                · exact Or.inl hg
                · refine Or.inr ?_
                  rcases Bool.eq_false_or_eq_true
                      (is_valid_line_id r.group_id "group") with hb | hb
                  · exact hb
                  · exact absurd ⟨hg, hb⟩ h4
            · intro _
              rfl
          · intro r2 heq
            have hr2 : r2 = { r with prompt := pyStrip r.prompt } :=
              (Except.ok.inj heq).symm
            refine ⟨hr2, ?_, ?_⟩
            · rw [hr2]
              exact hpsne
            · rw [hr2]
              show pyStrip (pyStrip r.prompt) = pyStrip r.prompt
              exact pyStrip_idem r.prompt

/-- Witness for C7 (amended): a request with a user-shaped originating
identity, a group-shaped conversation identity and a padded prompt
validates. -/
theorem validate_amended_witness :
    (LLMRequest.validate
        ⟨"Uaaaaaaaaaaaaaaaaaaaaaaaaaaaaaaaa",
         "Caaaaaaaaaaaaaaaaaaaaaaaaaaaaaaaa",
         "  hi  ", "sys", "x", 0, none, none, none, 0, 1, 0⟩).isOk = true := by
  have h := validate_amended
    ⟨"Uaaaaaaaaaaaaaaaaaaaaaaaaaaaaaaaa",
     "Caaaaaaaaaaaaaaaaaaaaaaaaaaaaaaaa",
     "  hi  ", "sys", "x", 0, none, none, none, 0, 1, 0⟩
  exact h.1.mpr ⟨by decide, by decide, by decide, by decide⟩

/-- An untrimmed prompt of 4002 characters whose trimmed form has exactly
4000 characters. -/
def longPrompt : String :=
  String.mk (' ' :: (List.replicate 4000 'a' ++ [' ']))

theorem longPrompt_length : longPrompt.length = 4002 := by
  show (' ' :: (List.replicate 4000 'a' ++ [' '])).length = 4002
  rw [List.length_cons, List.length_append, List.length_replicate,
    List.length_singleton]

theorem pyStrip_longPrompt :
    pyStrip longPrompt = String.mk (List.replicate 4000 'a') := by
  have hR : List.replicate 4000 'a' = 'a' :: List.replicate 3999 'a' := rfl
  show String.mk (pyStripList (' ' :: (List.replicate 4000 'a' ++ [' ']))) = _
  unfold pyStripList
  refine congrArg String.mk ?_
  have hd1 : (' ' :: (List.replicate 4000 'a' ++ [' '])).dropWhile isPySpace =
      List.replicate 4000 'a' ++ [' '] := by
    rw [List.dropWhile_cons, if_pos (by decide)]
    apply dropWhile_eq_self_of_head
    intro a t hat
    rw [hR, List.cons_append] at hat
    rw [← (List.cons.inj hat).1]
    decide
  have hone : ([' '] : List Char).reverse = [' '] := rfl
  have hd2 : (List.replicate 4000 'a').dropWhile isPySpace =
      List.replicate 4000 'a' := by
    apply dropWhile_eq_self_of_head
    intro a t hat
    rw [hR] at hat
    rw [← (List.cons.inj hat).1]
    decide
  rw [hd1, List.reverse_append, hone, List.singleton_append,
    List.dropWhile_cons, if_pos (by decide), List.reverse_replicate, hd2,
    List.reverse_replicate]

theorem pyStrip_longPrompt_length : (pyStrip longPrompt).length = 4000 := by
  rw [pyStrip_longPrompt]
  show (List.replicate 4000 'a').length = 4000
  rw [List.length_replicate]

/-- **C10.** The 4000-character prompt limit is enforced on the raw prompt
before trimming: a prompt of untrimmed length 4002 whose trimmed length is
4000 is rejected at construction, even though the stored (stripped) prompt
would have satisfied the limit. -/
theorem validate_checks_raw_length :
    LLMRequest.validate
        ⟨"", "", longPrompt, "sys", "x", 0, none, none, none, 0, 1, 0⟩ =
      Except.error ValidationError.promptTooLong ∧
    MAX_PROMPT_LENGTH < longPrompt.length ∧
    (pyStrip longPrompt).length ≤ MAX_PROMPT_LENGTH := by
  have h1 : ¬ (longPrompt = "" ∨ pyStrip longPrompt = "") := by
    intro h
    rcases h with h | h
    · have hc := congrArg String.length h
      rw [longPrompt_length] at hc
      exact absurd hc (by decide)
    · have hc := congrArg String.length h
      rw [pyStrip_longPrompt_length] at hc
      exact absurd hc (by decide)
  have h2 : MAX_PROMPT_LENGTH < longPrompt.length := by
    rw [longPrompt_length]
    decide
  refine ⟨?_, h2, ?_⟩
  · simp only [LLMRequest.validate]
    rw [if_neg h1, if_pos h2]
  · rw [pyStrip_longPrompt_length]
    decide

/-! ### Conversation context store

src/services/conversation_context_service.py.  `_context_store` becomes an
association list from group id to the message list (oldest first); the
per-group `deque(maxlen=3)` keeps the last `_MAX_MESSAGES_PER_GROUP`
entries.  `time.time()` is the explicit `now` parameter. -/

/-- One `ConversationMessage`. -/
structure ConversationMessage where
  user_id : String
  text : String
  timestamp : Int
  message_type : String
deriving DecidableEq, Repr

/-- `_MAX_MESSAGES_PER_GROUP`. -/
def MAX_MESSAGES_PER_GROUP : Nat := 3

/-- `_CONTEXT_TTL_SECONDS`. -/
def CONTEXT_TTL_SECONDS : Int := 3600

/-- `ConversationMessage.is_expired`: age strictly over the TTL. -/
def is_expired (ttl_seconds now : Int) (m : ConversationMessage) : Bool :=
  decide (ttl_seconds < now - m.timestamp)

/-- The `_context_store` container type. -/
abbrev Store : Type := List (String × List ConversationMessage)

/-- Dictionary lookup `_context_store[group_id]` / `in` test. -/
def store_lookup (group_id : String) (s : Store) :
    Option (List ConversationMessage) :=
  (List.find? (fun p => decide (p.1 = group_id)) s).map (fun p => p.2)

/-- Dictionary assignment: replace the value of an existing key in place,
append a new key at the back. -/
def store_set (group_id : String) (msgs : List ConversationMessage)
    (s : Store) : Store :=
  if (List.any s (fun p => decide (p.1 = group_id))) then
    List.map (fun p => if p.1 = group_id then (group_id, msgs) else p) s
  else s ++ [(group_id, msgs)]

/-- `deque(maxlen=cap).append`: drop from the left once over capacity. -/
def deque_append (cap : Nat) (msgs : List ConversationMessage)
    (m : ConversationMessage) : List ConversationMessage :=
  (msgs ++ [m]).drop ((msgs ++ [m]).length - cap)

/-- `_cleanup_expired_messages`: filter every group down to its unexpired
messages and delete groups left empty. -/
def cleanup_expired_messages (now : Int) (s : Store) : Store :=
  s.filterMap (fun p =>
    let valid := p.2.filter (fun m => ! is_expired CONTEXT_TTL_SECONDS now m)
    if valid.isEmpty then none else some (p.1, valid))

/-- `add_message`: lazily create the deque, append the new message (evicting
the oldest at capacity), then sweep expired messages from all groups. -/
def add_message (now : Int) (group_id user_id text message_type : String)
    (s : Store) : Store :=
  let msgs := (store_lookup group_id s).getD []
  let msg : ConversationMessage := ⟨user_id, text, now, message_type⟩
  let s1 := store_set group_id
    (deque_append MAX_MESSAGES_PER_GROUP msgs msg) s
  cleanup_expired_messages now s1

/-- Python `l[-n:]` (note `l[-0:]` is the whole list). -/
def py_take_last {α : Type} (n : Nat) (l : List α) : List α :=
  if n = 0 then l else l.drop (l.length - n)

/-- `get_context`: unknown group gives `[]`; otherwise the last
`max_messages` of the unexpired messages, oldest first. -/
def get_context (now : Int) (group_id : String) (max_messages : Nat)
    (s : Store) : List ConversationMessage :=
  match store_lookup group_id s with
  | none => []
  | some msgs =>
      py_take_last max_messages
        (msgs.filter (fun m => ! is_expired CONTEXT_TTL_SECONDS now m))

/-- The rendering of one message:
`User_<first 4 chars>: <text-or-kind-placeholder>`. -/
def render_line (m : ConversationMessage) : String :=
  let user_display := "User_" ++ (m.user_id.take 4)
  if m.message_type = "image" then user_display ++ ": [發送了圖片]"
  else if m.message_type = "sticker" then user_display ++ ": [發送了貼圖]"
  else if m.message_type = "text" then user_display ++ ": " ++ m.text
  else user_display ++ ": [發送了" ++ m.message_type ++ "]"

/-- `get_context_as_text`: empty context renders to the empty string,
otherwise the lines are joined by newlines. -/
def get_context_as_text (now : Int) (group_id : String) (max_messages : Nat)
    (s : Store) : String :=
  let messages := get_context now group_id max_messages s
  if messages.isEmpty then ""
  else String.intercalate "\n" (messages.map render_line)

/-- The last `n` entries of a list (the spec's "take the last
`maxMessages`"). -/
def takeLast {α : Type} (n : Nat) (l : List α) : List α :=
  l.drop (l.length - n)

/-- `renderRecent` as the spec words it: filter to unexpired, take the last
`maxMessages`, render oldest→newest as lines, join by newlines; an untouched
conversation or no valid entries give the empty string. -/
def renderRecentSpec (now : Int) (group_id : String) (max_messages : Nat)
    (s : Store) : String :=
  match store_lookup group_id s with
  | none => ""
  | some msgs =>
      String.intercalate "\n"
        ((takeLast max_messages
          (msgs.filter (fun m => ! is_expired CONTEXT_TTL_SECONDS now m))).map
          render_line)

/-- A sequence of `add_message` calls for one conversation, all at time
`now`; each entry is `(user_id, text, message_type)`. -/
def add_all (now : Int) (group_id : String)
    (entries : List (String × String × String)) (s : Store) : Store :=
  entries.foldl (fun acc e => add_message now group_id e.1 e.2.1 e.2.2 acc) s

/-- The message an `add_all` entry turns into. -/
def entryMsg (now : Int) (e : String × String × String) :
    ConversationMessage :=
  ⟨e.1, e.2.1, now, e.2.2⟩

/-! #### Context helper lemmas -/

theorem length_takeLast {α : Type} (n : Nat) (l : List α) :
    (takeLast n l).length = min n l.length := by
  unfold takeLast
  rw [List.length_drop]
  omega

theorem takeLast_of_le {α : Type} (n : Nat) (l : List α)
    (h : l.length ≤ n) : takeLast n l = l := by
  unfold takeLast
  have h0 : l.length - n = 0 := by omega
  rw [h0, List.drop_zero]

theorem takeLast_append_takeLast {α : Type} (n : Nat) (x y : List α) :
    takeLast n (takeLast n x ++ y) = takeLast n (x ++ y) := by
  unfold takeLast
  rw [← List.drop_append_of_le_length
    (show x.length - n ≤ x.length by omega)]
  rw [List.drop_drop]
  congr 1
  rw [List.length_drop, List.length_append]
  omega

theorem store_lookup_singleton (gid : String)
    (msgs : List ConversationMessage) :
    store_lookup gid [(gid, msgs)] = some msgs := by
  unfold store_lookup
  simp [List.find?_cons]

theorem store_set_singleton (gid : String)
    (msgs msgs2 : List ConversationMessage) :
    store_set gid msgs2 [(gid, msgs)] = [(gid, msgs2)] := by
  unfold store_set
  rw [if_pos (by simp)]
  simp

theorem context_filter_fresh (now : Int) (X : List ConversationMessage)
    (h : ∀ m ∈ X, m.timestamp = now) :
    X.filter (fun m => ! is_expired CONTEXT_TTL_SECONDS now m) = X := by
  apply List.filter_eq_self.mpr
  intro m hm
  unfold is_expired
  rw [h m hm]
  have hlt : ¬ CONTEXT_TTL_SECONDS < now - now := by
    unfold CONTEXT_TTL_SECONDS
    omega
  rw [decide_eq_false hlt]
  rfl

theorem cleanup_singleton_fresh (now : Int) (gid : String)
    (X : List ConversationMessage)
    (hts : ∀ m ∈ X, m.timestamp = now) (hne : X ≠ []) :
    cleanup_expired_messages now [(gid, X)] = [(gid, X)] := by
  unfold cleanup_expired_messages
  rw [List.filterMap_cons]
  simp only [context_filter_fresh now X hts]
  cases X with
  | nil => exact absurd rfl hne
  | cons m rest => rfl

theorem deque_append_eq_takeLast (cap : Nat)
    (msgs : List ConversationMessage) (m : ConversationMessage) :
    deque_append cap msgs m = takeLast cap (msgs ++ [m]) := rfl

theorem takeLast_ne_nil {α : Type} (n : Nat) (l : List α)
    (hn : 0 < n) (hl : l ≠ []) : takeLast n l ≠ [] := by
  intro h
  have hlen := congrArg List.length h
  rw [length_takeLast] at hlen
  have hl0 : 0 < l.length := List.length_pos.mpr hl
  simp only [List.length_nil] at hlen
  omega

/-- Appending messages to a single-conversation store, all within the TTL:
the stored list is always the last `MAX_MESSAGES_PER_GROUP` of everything
appended, in insertion order. -/
theorem add_all_single_group (now : Int) (gid : String) :
    ∀ (entries : List (String × String × String))
      (msgs : List ConversationMessage),
      msgs ≠ [] → (∀ m ∈ msgs, m.timestamp = now) →
      msgs.length ≤ MAX_MESSAGES_PER_GROUP →
      add_all now gid entries [(gid, msgs)] =
        [(gid, takeLast MAX_MESSAGES_PER_GROUP
          (msgs ++ entries.map (entryMsg now)))]
  | [], msgs, _, _, hlen => by
    show [(gid, msgs)] = _
    rw [List.map_nil, List.append_nil, takeLast_of_le _ _ hlen]
  | e :: rest, msgs, hne, hts, hlen => by
    have hM : 0 < MAX_MESSAGES_PER_GROUP := by
      unfold MAX_MESSAGES_PER_GROUP
      omega
    have hstep : add_message now gid e.1 e.2.1 e.2.2 [(gid, msgs)] =
        [(gid, takeLast MAX_MESSAGES_PER_GROUP
          (msgs ++ [entryMsg now e]))] := by
      unfold add_message
      rw [store_lookup_singleton]
      simp only [Option.getD_some]
      rw [deque_append_eq_takeLast, store_set_singleton]
      apply cleanup_singleton_fresh
      · intro m hm
        have hsub := List.drop_subset _ _ hm
        rcases List.mem_append.mp hsub with hm2 | hm2
        · exact hts m hm2
        · rcases List.mem_singleton.mp hm2 with rfl; rfl
      · apply takeLast_ne_nil _ _ hM
        intro hnil
        rcases List.append_eq_nil.mp hnil with ⟨_, h2⟩
        exact absurd h2 (by simp)
    show add_all now gid rest (add_message now gid e.1 e.2.1 e.2.2 [(gid, msgs)]) = _
    rw [hstep]
    rw [add_all_single_group now gid rest
      (takeLast MAX_MESSAGES_PER_GROUP (msgs ++ [entryMsg now e]))
      (takeLast_ne_nil _ _ hM (by
        intro hnil
        rcases List.append_eq_nil.mp hnil with ⟨_, h2⟩
        exact absurd h2 (by simp)))
      (by
        intro m hm
        have hsub := List.drop_subset _ _ hm
        rcases List.mem_append.mp hsub with hm2 | hm2
        · exact hts m hm2
        · rcases List.mem_singleton.mp hm2 with rfl; rfl)
      (by
        rw [length_takeLast]
        omega)]
    rw [takeLast_append_takeLast, List.append_assoc, List.singleton_append,
      List.map_cons]

/-- Appending to an untouched conversation store. -/
theorem add_all_from_empty (now : Int) (gid : String)
    (entries : List (String × String × String)) (hne : entries ≠ []) :
    store_lookup gid (add_all now gid entries []) =
      some (takeLast MAX_MESSAGES_PER_GROUP (entries.map (entryMsg now))) := by
  obtain ⟨e, rest, rfl⟩ := List.exists_cons_of_ne_nil hne
  have hfirst : add_message now gid e.1 e.2.1 e.2.2 [] =
      [(gid, [entryMsg now e])] := by
    unfold add_message store_lookup store_set
    simp only [List.find?_nil, Option.map_none, Option.getD_none,
      List.any_nil, Bool.false_eq_true, if_false, List.nil_append]
    show cleanup_expired_messages now
      [(gid, takeLast MAX_MESSAGES_PER_GROUP ([] ++ [entryMsg now e]))] = _
    rw [List.nil_append]
    have ht1 : takeLast MAX_MESSAGES_PER_GROUP [entryMsg now e] =
        [entryMsg now e] := by
      apply takeLast_of_le
      rw [List.length_singleton]
      unfold MAX_MESSAGES_PER_GROUP
      omega
    rw [ht1]
    apply cleanup_singleton_fresh
    · intro m hm
      rcases List.mem_singleton.mp hm with rfl; rfl
    · simp
  show store_lookup gid
    (add_all now gid rest (add_message now gid e.1 e.2.1 e.2.2 [])) = _
  rw [hfirst]
  rw [add_all_single_group now gid rest [entryMsg now e] (by simp)
    (by intro m hm; rcases List.mem_singleton.mp hm with rfl; rfl)
    (by rw [List.length_singleton]; unfold MAX_MESSAGES_PER_GROUP; omega)]
  rw [store_lookup_singleton, List.singleton_append, List.map_cons]

/-- **C8.** Rendering recent context filters out entries older than the TTL,
takes the last `maxMessages` of the (at most 3) retained entries, renders
them oldest to newest as one `"<shortIdentity>: <text-or-kind-placeholder>"`
line per entry joined by newlines, and returns the empty string (not an
error) for an untouched conversation or when no unexpired entries remain;
appending more than the capacity retains only the most recent 3 entries in
insertion order. -/
theorem get_context_as_text_spec (now : Int) (gid : String) (maxM : Nat)
    (s : Store) (entries : List (String × String × String))
    (hm : 0 < maxM) :
    (store_lookup gid s = none → get_context_as_text now gid maxM s = "") ∧
    get_context_as_text now gid maxM s = renderRecentSpec now gid maxM s ∧
    (entries ≠ [] →
      store_lookup gid (add_all now gid entries []) =
        some (takeLast MAX_MESSAGES_PER_GROUP (entries.map (entryMsg now)))) := by
  refine ⟨?_, ?_, fun h => add_all_from_empty now gid entries h⟩
  · intro h
    simp [get_context_as_text, get_context, h]
  · cases hl : store_lookup gid s with
    | none => simp [get_context_as_text, get_context, renderRecentSpec, hl]
    | some msgs =>
        have hpy : py_take_last maxM
            (msgs.filter (fun m => ! is_expired CONTEXT_TTL_SECONDS now m)) =
            takeLast maxM
            (msgs.filter (fun m => ! is_expired CONTEXT_TTL_SECONDS now m)) := by
          unfold py_take_last takeLast
          rw [if_neg (by omega)]
        simp only [get_context_as_text, get_context, renderRecentSpec, hl]
        rw [hpy]
        by_cases he : (takeLast maxM
            (msgs.filter
              (fun m => ! is_expired CONTEXT_TTL_SECONDS now m))).isEmpty = true
        · rw [if_pos he]
          rw [List.isEmpty_iff.mp he]
          rfl
        · rw [if_neg he]

/-- Witness for C8: a one-message store renders through the spec formula and
a single append lands in the store. -/
theorem get_context_as_text_spec_witness :
    get_context_as_text 0 "g" 2
        [("g", [⟨"Uaaa1", "hello", 0, "text"⟩])] =
      renderRecentSpec 0 "g" 2 [("g", [⟨"Uaaa1", "hello", 0, "text"⟩])] ∧
    store_lookup "g" (add_all 0 "g" [("u1", "hi", "text")] []) =
      some (takeLast MAX_MESSAGES_PER_GROUP
        ([("u1", "hi", "text")].map (entryMsg 0))) := by
  have h := get_context_as_text_spec 0 "g" 2
    [("g", [⟨"Uaaa1", "hello", 0, "text"⟩])] [("u1", "hi", "text")]
    (by decide)
  exact ⟨h.2.1, h.2.2 (by decide)⟩

end LineBot
